import Mathlib

/-!
Shallow embedding of the `ghca` (git-contributor-insights) Go core:
the vendor classifier cascade (`pkg/config`), the domain auto-classifier,
the metrics aggregation fold (`pkg/analyzer.Analyze`), the timeline
bucketer (`pkg/analyzer/timeline.go`), ranking/grouping
(`pkg/analyzer/grouping.go`, `GetSortedVendors`), and the ordered worker
pool (`pkg/git.processCommitsConcurrent`).

Go strings are Lean `String`s; the handful of Go `strings` library
operations the code uses (`Split` on the single character `"@"`,
`ToLower`, `Contains`, `TrimSpace`) are modelled explicitly below so that
the embedding does not depend on Lean's own string-splitting semantics.
Go `map` values are modelled as association lists (iteration order is a
parameter of the embedding; Go's map iteration order is unspecified) or,
where the code only ever reads a map totally, as total functions with the
zero value as default.  Machine integers that only ever hold nonnegative
counts are `Nat`.  A Go nil-pointer dereference (panic) is modelled by
`Option`/`none` propagation.
-/

/-- Go `strings.Split(s, sep)` restricted to a one-character separator,
on the character-list level: splits into the (possibly empty) runs
between occurrences of `c`.  `splitChars c [] = [[]]`, matching Go's
`strings.Split("", "@") = [""]`. -/
def splitChars (c : Char) : List Char → List (List Char)
  | [] => [[]]
  | x :: xs =>
    match splitChars c xs with
    | [] => [[]]
    | y :: ys => if x = c then [] :: y :: ys else (x :: y) :: ys

/-- Go `strings.Split(s, "@")`-style split of a `String` on one character. -/
def splitOnChar (s : String) (c : Char) : List String :=
  (splitChars c s.data).map String.mk

/-- Go `strings.ToLower`, which on ASCII input lowercases `A`–`Z`
(these programs only compare ASCII configuration strings). -/
def strToLower (s : String) : String :=
  ⟨s.data.map Char.toLower⟩

/-- Go `strings.Contains(s, sub)`: `sub` occurs as a contiguous substring
of `s`. -/
def strContains (s sub : String) : Bool :=
  s.data.tails.any fun t => sub.data.isPrefixOf t

/-- Go `strings.TrimSpace`: strip leading and trailing whitespace. -/
def strTrimSpace (s : String) : String :=
  ⟨(s.data.dropWhile Char.isWhitespace).reverse.dropWhile Char.isWhitespace |>.reverse⟩

/-! ## `pkg/config`: vendor configuration and the classification cascade -/

/-- `config.VendorConfig`: matching rules for one vendor. -/
structure VendorConfig where
  domains : List String
  githubCompanies : List String
  usernames : List String
deriving DecidableEq

/-- `config.Config`: the vendor map, as an association list
(name, rules); Go iterates the map in unspecified order, the embedding
fixes the list order as that iteration order. -/
structure Config where
  vendors : List (String × VendorConfig)
deriving DecidableEq

/-- `Config.GetVendorNames`. -/
def Config.getVendorNames (c : Config) : List String :=
  c.vendors.map Prod.fst

/-- `Config.GetAllCategories`: vendor names plus `"community"`. -/
def Config.getAllCategories (c : Config) : List String :=
  c.getVendorNames ++ ["community"]

/-- `config.AutoClassifyByDomain`'s fixed set of personal-webmail domains. -/
def personalDomains : List String :=
  ["gmail.com", "yahoo.com", "hotmail.com", "outlook.com", "protonmail.com",
   "icloud.com", "mail.com", "aol.com", "yandex.com", "qq.com", "163.com",
   "126.com", "sina.com", "live.com", "msn.com", "me.com", "mac.com",
   "googlemail.com", "yahoo.co.uk", "yahoo.co.jp", "fastmail.com", "zoho.com"]

/-- `config.AutoClassifyByDomain`: empty email → `"unknown"`; not exactly
one `"@"` → `"invalid-email"`; personal-webmail domain → `"community"`;
otherwise `"@" ++ domain` (domain lower-cased). -/
def autoClassifyByDomain (email : String) : String :=
  if email = "" then "unknown"
  else
    match splitOnChar email '@' with
    | [_, d] =>
      let domain := strToLower d
      if domain ∈ personalDomains then "community" else "@" ++ domain
    | _ => "invalid-email"

/-- `Config.ClassifyByEmail`: first vendor (in iteration order) with a
domain equal, case-insensitively, to the part after the `"@"`; requires
exactly one `"@"`; `""` when nothing matches. -/
def Config.classifyByEmail (c : Config) (email : String) : String :=
  if email = "" then ""
  else
    match splitOnChar email '@' with
    | [_, d] =>
      let domain := strToLower d
      match c.vendors.find? (fun p => p.2.domains.any fun x => strToLower x = domain) with
      | some p => p.1
      | none => ""
    | _ => ""

/-- `Config.ClassifyByCompany`: first vendor with an organization
fragment contained, case-insensitively, in the whitespace-trimmed
company string; `""` when nothing matches. -/
def Config.classifyByCompany (c : Config) (company : String) : String :=
  if company = "" then ""
  else
    let companyLower := strToLower (strTrimSpace company)
    match c.vendors.find? (fun p => p.2.githubCompanies.any fun x => strContains companyLower (strToLower x)) with
    | some p => p.1
    | none => ""

/-- `Config.ClassifyByUsername`: first vendor with a username equal,
case-insensitively, to the given username; `""` when nothing matches. -/
def Config.classifyByUsername (c : Config) (username : String) : String :=
  if username = "" then ""
  else
    let usernameLower := strToLower username
    match c.vendors.find? (fun p => p.2.usernames.any fun x => strToLower x = usernameLower) with
    | some p => p.1
    | none => ""

/-- `Config.Classify`: auto-classification when no vendors are
configured, otherwise the cascade username → email domain → company →
`"community"`. -/
def Config.classify (c : Config) (email company username : String) : String :=
  if c.vendors = [] then autoClassifyByDomain email
  else
    let byUser := c.classifyByUsername username
    if byUser ≠ "" then byUser
    else
      let byEmail := c.classifyByEmail email
      if byEmail ≠ "" then byEmail
      else
        let byCompany := c.classifyByCompany company
        if byCompany ≠ "" then byCompany
        else "community"

/-! ## `pkg/types`: commit records and metrics -/

/-- The face of Go `time.Time` that the core reads: calendar year, month
and day plus the ISO-8601 week-numbering pair returned by
`time.Time.ISOWeek()` (treated as primitive accessors of the timestamp;
the calendar arithmetic behind them belongs to the Go standard library,
not to this repository). -/
structure Date where
  year : Int
  month : Nat
  day : Nat
  isoYear : Int
  isoWeek : Nat
deriving DecidableEq

/-- `types.CommitData` (fields the core reads; the SHA and message are
carried but never branched on). -/
structure CommitData where
  sha : String
  authorName : String
  authorEmail : String
  date : Date
  additions : Nat
  deletions : Nat
deriving DecidableEq

/-- `types.VendorMetrics`.  The unique-contributor map
`map[string]bool` is a `Finset String`; the three by-month `map[string]int`
are total functions with default 0 (Go map reads of absent keys yield 0,
and the code never iterates these maps in the parts under claim). -/
structure VendorMetrics where
  name : String
  totalCommits : Nat
  totalAdditions : Nat
  totalDeletions : Nat
  uniqueContributors : Finset String
  commitsByMonth : String → Nat
  additionsByMonth : String → Nat
  deletionsByMonth : String → Nat

/-- `types.NewVendorMetrics`: zeroed metrics for a category. -/
def newVendorMetrics (name : String) : VendorMetrics :=
  { name := name
    totalCommits := 0
    totalAdditions := 0
    totalDeletions := 0
    uniqueContributors := ∅
    commitsByMonth := fun _ => 0
    additionsByMonth := fun _ => 0
    deletionsByMonth := fun _ => 0 }

/-- `VendorMetrics.ContributorCount`. -/
def VendorMetrics.contributorCount (vm : VendorMetrics) : Nat :=
  vm.uniqueContributors.card

/-- Two-digit zero padding of `fmt.Sprintf("%02d", n)`. -/
def pad2 (n : Nat) : String :=
  if n < 10 then "0" ++ toString n else toString n

/-- The `commit.Date.Format("2006-01")` month key of `Analyzer.Analyze`. -/
def monthKey (d : Date) : String :=
  toString d.year ++ "-" ++ pad2 d.month

/-! ## `pkg/analyzer`: the whole-repo aggregation fold (`Analyze`) -/

/-- One step of the per-commit fold in `Analyzer.Analyze`
(timeline-independent part): classify the author, then bump the
classified category's totals, contributor set and month buckets.  The
category map is a total function `String → VendorMetrics`; this is
faithful to the Go map because `Analyze` lazily replaces a missing entry
by `NewVendorMetrics(vendor)`, which is exactly the default the function
map starts from. -/
def bumpMetrics (vm : VendorMetrics) (c : CommitData) : VendorMetrics :=
  -- the contributor identifier: the email, or the display name when the
  -- email is empty; an empty identifier is not tracked
  let contributorId := if c.authorEmail = "" then c.authorName else c.authorEmail
  let mk := monthKey c.date
  { vm with
    totalCommits := vm.totalCommits + 1
    totalAdditions := vm.totalAdditions + c.additions
    totalDeletions := vm.totalDeletions + c.deletions
    uniqueContributors :=
      if contributorId = "" then vm.uniqueContributors
      else insert contributorId vm.uniqueContributors
    commitsByMonth := fun k =>
      if k = mk then vm.commitsByMonth k + 1 else vm.commitsByMonth k
    additionsByMonth := fun k =>
      if k = mk then vm.additionsByMonth k + c.additions else vm.additionsByMonth k
    deletionsByMonth := fun k =>
      if k = mk then vm.deletionsByMonth k + c.deletions else vm.deletionsByMonth k }

/-- One step of the per-commit fold of `Analyzer.Analyze`: classify the
author (`Classify(email, "", "")`), then bump the classified category's
metrics. -/
def analyzeStep (cfg : Config) (m : String → VendorMetrics) (c : CommitData) :
    String → VendorMetrics :=
  let vendor := cfg.classify c.authorEmail "" ""
  fun cat => if cat = vendor then bumpMetrics (m cat) c else m cat

/-- The category-metrics map built by `Analyzer.Analyze` over a commit
list: fold `analyzeStep` from the all-zero map (initialization plus lazy
discovery collapse to the zero default, see `analyzeStep`). -/
def analyzeVendorMetrics (cfg : Config) (commits : List CommitData) :
    String → VendorMetrics :=
  commits.foldl (analyzeStep cfg) (fun cat => newVendorMetrics cat)

/-! ## `pkg/analyzer/timeline.go`: the timeline bucketer -/

/-- `analyzer.TimeBreakdown` (the period's display boundary dates from
`getPeriodRange` are unused by every claim and omitted). -/
structure TimeBreakdown where
  period : String
  vendorMetrics : List (String × VendorMetrics)
  totalCommits : Nat

/-- `analyzer.TimelineAnalysis`. -/
structure TimelineAnalysis where
  repoName : String
  breakdown : String
  periods : List TimeBreakdown

/-- `analyzer.getPeriodKey`: the period key of a date under a breakdown
granularity; the Go `switch` falls back to the year key on any other
granularity string. -/
def getPeriodKey (d : Date) (breakdownType : String) : String :=
  if breakdownType = "year" then toString d.year
  else if breakdownType = "quarter" then
    toString d.year ++ "-Q" ++ toString ((d.month - 1) / 3 + 1)
  else if breakdownType = "month" then
    toString d.year ++ "-" ++ pad2 d.month
  else if breakdownType = "week" then
    toString d.isoYear ++ "-W" ++ pad2 d.isoWeek
  else toString d.year

/-- Go map lookup in an association list: first binding wins (a Go map
has unique keys, so with `Nodup` keys this is exact). -/
def lookupMetrics (l : List (String × VendorMetrics)) (k : String) :
    Option VendorMetrics :=
  (l.find? fun p => p.1 = k).map Prod.snd

/-- Update the binding of `k` in an association list. -/
def updateMetrics (l : List (String × VendorMetrics)) (k : String)
    (f : VendorMetrics → VendorMetrics) : List (String × VendorMetrics) :=
  l.map fun p => if p.1 = k then (p.1, f p.2) else p

/-- The per-commit body of the per-period loop in
`analyzer.AnalyzeTimeline` (lines 68–78): classify, read the category's
metrics pointer *without a nil check*, bump totals and the contributor
set.  A missing category is a nil dereference, i.e. a Go panic,
modelled as `none`. -/
def timelineStep (cfg : Config)
    (st : List (String × VendorMetrics) × Nat) (c : CommitData) :
    Option (List (String × VendorMetrics) × Nat) :=
  let vendor := cfg.classify c.authorEmail "" ""
  match lookupMetrics st.1 vendor with
  | none => none
  | some _ =>
    some (updateMetrics st.1 vendor (fun vm =>
      { vm with
        totalCommits := vm.totalCommits + 1
        totalAdditions := vm.totalAdditions + c.additions
        totalDeletions := vm.totalDeletions + c.deletions
        uniqueContributors := insert c.authorEmail vm.uniqueContributors }),
      st.2 + 1)

/-- One period's fold of `AnalyzeTimeline`: initialize one
`VendorMetrics` per category of `GetAllCategories`, then fold
`timelineStep` over the period's commits.  `none` models the nil-pointer
panic on a category that was never initialized. -/
def analyzePeriod (cfg : Config) (period : String)
    (periodCommits : List CommitData) : Option TimeBreakdown :=
  match periodCommits.foldlM (timelineStep cfg)
      (cfg.getAllCategories.map fun cat => (cat, newVendorMetrics cat), 0) with
  | none => none
  | some (vm, total) =>
    some { period := period, vendorMetrics := vm, totalCommits := total }

/-- Insert into a sorted list under the Boolean comparison `le`
(the building block of the comparator-correct sort used to model Go's
`sort.Slice` and `sort.Strings`). -/
def insertSorted {α : Type} (le : α → α → Bool) (a : α) : List α → List α
  | [] => [a]
  | b :: bs => if le a b then a :: b :: bs else b :: insertSorted le a bs

/-- A comparator-correct, stable sort (insertion sort).  Go's
`sort.Slice`/`sort.Strings` guarantee only comparator-correct order, so
any correct sort models them up to tie order (which Go leaves
unspecified anyway). -/
def sortBy {α : Type} (le : α → α → Bool) : List α → List α
  | [] => []
  | a :: as => insertSorted le a (sortBy le as)

/-- The distinct period keys of a commit list under a breakdown,
ascending (`sort.Strings`); Go collects them from the grouping map and
sorts, the embedding deduplicates the per-commit keys and sorts by the
character-list order. -/
def periodKeys (commits : List CommitData) (breakdownType : String) : List String :=
  sortBy (fun a b => a.data ≤ b.data)
    ((commits.map fun c => getPeriodKey c.date breakdownType).dedup)

/-- `analyzer.AnalyzeTimeline`: group commits by period key (grouping by
appending in input order equals filtering on the key), then run one
aggregation fold per period, periods ascending by key.  `none` models
the nil-pointer panic of `timelineStep`; the overall date range is
claim-irrelevant and omitted. -/
def analyzeTimeline (commits : List CommitData) (cfg : Config)
    (repoName breakdownType : String) : Option TimelineAnalysis :=
  if commits = [] then
    some { repoName := repoName, breakdown := breakdownType, periods := [] }
  else
    match (periodKeys commits breakdownType).mapM (fun k =>
        analyzePeriod cfg k
          (commits.filter fun c => getPeriodKey c.date breakdownType = k)) with
    | none => none
    | some ps =>
      some { repoName := repoName, breakdown := breakdownType, periods := ps }

/-- The valid breakdown granularities checked by `runAnalyze`
(`cmd/.../main.go` lines 184–191). -/
def validBreakdowns : List String := ["year", "quarter", "month", "week"]

/-- The timeline path of `runAnalyze`: an unrecognized granularity is a
fatal error (`os.Exit(1)`, modelled as `Except.error`) *before*
`AnalyzeTimeline` is invoked; a valid one runs the bucketer. -/
def runAnalyzeTimeline (commits : List CommitData) (cfg : Config)
    (repoName breakdownType : String) : Except String (Option TimelineAnalysis) :=
  if breakdownType ∈ validBreakdowns then
    Except.ok (analyzeTimeline commits cfg repoName breakdownType)
  else
    Except.error ("Invalid breakdown type: " ++ breakdownType ++
      " (must be: year, quarter, month, week)")

/-! ## `TimeBreakdown.GetVendorPercentage` (timeline.go lines 173–208)

Go computes the share in `float64`; the embedding computes it in `ℚ`,
which preserves the claim-relevant facts (the value of each guard, and
the `[0, 100]` bounds) exactly. -/

/-- Sum of `TotalAdditions` over the period's category map
(the Go `for _, m := range tb.VendorMetrics` accumulation). -/
def sumAdditions (l : List (String × VendorMetrics)) : Nat :=
  (l.map fun p => p.2.totalAdditions).sum

/-- Sum of `ContributorCount()` over the period's category map. -/
def sumContributors (l : List (String × VendorMetrics)) : Nat :=
  (l.map fun p => p.2.contributorCount).sum

/-- Sum of `TotalCommits` over the period's category map (used to state
the `PeriodBucket` invariant of the spec's data model). -/
def sumCommits (l : List (String × VendorMetrics)) : Nat :=
  (l.map fun p => p.2.totalCommits).sum

/-- `TimeBreakdown.GetVendorPercentage`: the category's share of the
period's commits / additions / contributors, 0 on a zero denominator, an
unknown category, or an unknown metric. -/
def TimeBreakdown.getVendorPercentage (tb : TimeBreakdown)
    (vendor metric : String) : ℚ :=
  if tb.totalCommits = 0 then 0
  else
    match lookupMetrics tb.vendorMetrics vendor with
    | none => 0
    | some m =>
      if metric = "commits" then
        (m.totalCommits : ℚ) / (tb.totalCommits : ℚ) * 100
      else if metric = "additions" then
        let totalAdd := sumAdditions tb.vendorMetrics
        if totalAdd = 0 then 0
        else (m.totalAdditions : ℚ) / (totalAdd : ℚ) * 100
      else if metric = "contributors" then
        let totalContrib := sumContributors tb.vendorMetrics
        if totalContrib = 0 then 0
        else (m.contributorCount : ℚ) / (totalContrib : ℚ) * 100
      else 0

/-! ## `pkg/analyzer/grouping.go`: top-N grouping -/

/-- `analyzer.VendorGroup`. -/
structure VendorGroup where
  name : String
  totalCommits : Nat
  totalAdditions : Nat
  totalDeletions : Nat
  uniqueContributors : Finset String
  isGrouped : Bool

/-- The `VendorGroup` copied verbatim from one category's metrics. -/
def toVendorGroup (name : String) (m : VendorMetrics) : VendorGroup :=
  { name := name
    totalCommits := m.totalCommits
    totalAdditions := m.totalAdditions
    totalDeletions := m.totalDeletions
    uniqueContributors := m.uniqueContributors
    isGrouped := false }

/-- The synthetic `"others"` group: commits/additions/deletions summed,
contributor sets unioned (grouping.go lines 90–111). -/
def othersGroup (collapsed : List (String × VendorMetrics)) : VendorGroup :=
  { name := "others"
    totalCommits := (collapsed.map fun p => p.2.totalCommits).sum
    totalAdditions := (collapsed.map fun p => p.2.totalAdditions).sum
    totalDeletions := (collapsed.map fun p => p.2.totalDeletions).sum
    uniqueContributors := collapsed.foldr (fun p acc => p.2.uniqueContributors ∪ acc) ∅
    isGrouped := true }

/-- The non-community categories sorted descending by `TotalCommits`
(grouping.go lines 34–41; `sort.Slice` with `commits_i > commits_j`,
modelled by a merge sort under the reflexive closure `≥`). -/
def sortedVendorsByCommits (metricsList : List (String × VendorMetrics)) :
    List (String × VendorMetrics) :=
  sortBy (fun a b => b.2.totalCommits ≤ a.2.totalCommits)
    (metricsList.filter fun p => p.1 ≠ "community")

/-- `analyzer.GroupVendors`: community (when present) first and never
collapsed; all vendors individually when at most `topN` of them;
otherwise the top `topN - 1` individually plus one `"others"` group.
Faithful for `topN ≥ 1` (Go would panic on a negative slice index for
`topN = 0` with vendors present). -/
def groupVendors (metricsList : List (String × VendorMetrics)) (topN : Nat) :
    List VendorGroup :=
  let communityPart :=
    match lookupMetrics metricsList "community" with
    | some m => [toVendorGroup "community" m]
    | none => []
  let sorted := sortedVendorsByCommits metricsList
  if sorted.length ≤ topN then
    communityPart ++ sorted.map fun p => toVendorGroup p.1 p.2
  else
    let showIndividually := topN - 1
    communityPart ++ (sorted.take showIndividually).map (fun p => toVendorGroup p.1 p.2) ++
      (if showIndividually < sorted.length then [othersGroup (sorted.drop showIndividually)] else [])

/-! ## `Analyzer.GetSortedVendors` (part of the aggregation module) -/

/-- `types.RepositoryAnalysis`, restricted to the fields
`GetSortedVendors` reads. -/
structure RepositoryAnalysis where
  repoName : String
  totalCommits : Nat
  totalContributors : Nat
  vendorMetrics : List (String × VendorMetrics)

/-- The comparator value of one category under a ranking metric
(`GetSortedVendors`'s `switch by`; the Go `default` branch ranks by
commits). -/
def metricValue (by' : String) (m : VendorMetrics) : Nat :=
  if by' = "commits" then m.totalCommits
  else if by' = "additions" then m.totalAdditions
  else if by' = "contributors" then m.contributorCount
  else m.totalCommits

/-- The value `GetSortedVendors`'s comparator reads for one category
name: the chosen metric of `analysis.VendorMetrics[name]`. -/
def rankValue (analysis : RepositoryAnalysis) (by' : String) (n : String) : Nat :=
  match lookupMetrics analysis.vendorMetrics n with
  | some m => metricValue by' m
  | none => 0

/-- `analyzer.GetSortedVendors`: category names sorted by the chosen
metric; with `reverse = true` the comparator is `value_i > value_j`
(descending), with `reverse = false` it is negated (ascending).  Sorting
a Go slice under a comparator is modelled by a comparator-correct sort
under the corresponding reflexive total order. -/
def getSortedVendors (analysis : RepositoryAnalysis) (by' : String)
    (reverse : Bool) : List String :=
  let names := analysis.vendorMetrics.map Prod.fst
  sortBy (fun a b =>
      if reverse then rankValue analysis by' b ≤ rankValue analysis by' a
      else rankValue analysis by' a ≤ rankValue analysis by' b)
    names

/-! ## `pkg/git.processCommitsConcurrent`: the ordered worker pool

The pool tags each input with its index, lets `workers` goroutines apply
the extraction function in an arbitrary interleaving, and collects the
tagged results into a slot array indexed by original position; erroring
records leave their slot empty and are filtered out at the end.  The
embedding abstracts the extraction function as `extract : α → Option β`
(`none` = the per-record error) and quantifies over every completion
order as an arbitrary permutation `ord` of the tagged extraction
results; the worker count only selects which interleavings can occur. -/

/-- The tagged extraction results, in input order: position `i` carries
`extract` of the `i`-th record (the value every worker computes for job
`i`, whatever worker runs it). -/
def taggedResults {α β : Type} (extract : α → Option β) (records : List α) :
    List (Nat × Option β) :=
  records.enum.map fun p => (p.1, extract p.2)

/-- The collection loop (`for r := range results`): an erroring result
is skipped (`continue`), a successful one is written into its original
slot (`commitData[r.index] = r.data`); `List.set` is the in-bounds slice
write. -/
def fillSlots {β : Type} (slots : List (Option β)) (ord : List (Nat × Option β)) :
    List (Option β) :=
  ord.foldl (fun a p =>
    match p.2 with
    | none => a
    | some d => a.set p.1 (some d)) slots

/-- `processCommitsConcurrent` for a given completion order `ord`
(a permutation of the tagged results — each job is dispatched and
completed exactly once): collect into `len(records)` empty slots, then
filter out the empty slots (`filteredData`); the Go function always
returns a `nil` error, hence `Except.ok`.  The worker count `workers`
only determines which completion orders can occur (Go normalizes
`workers ≤ 0` to 4), never the collected output. -/
def processCommitsConcurrent {α β : Type} (records : List α)
    (workers : Nat) (ord : List (Nat × Option β)) :
    Except String (List β) :=
  Except.ok ((fillSlots (List.replicate records.length none) ord).filterMap id)

/-! ## Helper lemmas about the string machinery -/

theorem splitChars_ne_nil (c : Char) (l : List Char) : splitChars c l ≠ [] := by
  cases l with
  | nil => simp [splitChars]
  | cons x xs =>
    unfold splitChars
    cases h : splitChars c xs with
    | nil => simp
    | cons y ys => by_cases hx : x = c <;> simp [hx]

theorem splitChars_length (c : Char) :
    ∀ l : List Char, (splitChars c l).length = l.count c + 1 := by
  intro l
  induction l with
  | nil => simp [splitChars]
  | cons x xs ih =>
    unfold splitChars
    cases h : splitChars c xs with
    | nil => exact absurd h (splitChars_ne_nil c xs)
    | cons y ys =>
      rw [h] at ih
      by_cases hx : x = c
      · have hcnt : (x :: xs).count c = xs.count c + 1 := by
          simp [List.count_cons, hx]
        simp only [if_pos hx, hcnt, List.length_cons] at *
        omega
      · have hcnt : (x :: xs).count c = xs.count c := by
          simp [List.count_cons, hx]
        simp only [if_neg hx, hcnt, List.length_cons] at *
        omega

theorem splitChars_of_count_zero (c : Char) :
    ∀ l : List Char, l.count c = 0 → splitChars c l = [l] := by
  intro l
  induction l with
  | nil => simp [splitChars]
  | cons x xs ih =>
    intro h
    have hx : ¬(x = c) := by
      intro hxc
      simp [List.count_cons, hxc] at h
    have hxs : xs.count c = 0 := by
      simp [List.count_cons] at h
      omega
    unfold splitChars
    rw [ih hxs]
    simp [hx]

theorem splitChars_of_count_one (c : Char) :
    ∀ l : List Char, l.count c = 1 →
      splitChars c l =
        [l.takeWhile (fun x => x ≠ c), (l.dropWhile (fun x => x ≠ c)).tail] := by
  intro l
  induction l with
  | nil => simp [List.count_nil]
  | cons x xs ih =>
    intro h
    by_cases hx : x = c
    · have hxs : xs.count c = 0 := by
        simp [List.count_cons, hx] at h
        omega
      unfold splitChars
      rw [splitChars_of_count_zero c xs hxs]
      simp [hx]
    · have hxs : xs.count c = 1 := by
        simpa [List.count_cons, hx] using h
      unfold splitChars
      rw [ih hxs]
      simp [hx]

/-- The part of an email after its (unique) `'@'`: what both the spec
and the code call the email's domain. -/
def domainAfterAt (e : String) : String :=
  ⟨(e.data.dropWhile (fun x => x ≠ '@')).tail⟩

theorem splitOnChar_of_count_one (e : String) (h : e.data.count '@' = 1) :
    splitOnChar e '@' =
      [⟨e.data.takeWhile (fun x => x ≠ '@')⟩, domainAfterAt e] := by
  unfold splitOnChar domainAfterAt
  rw [splitChars_of_count_one '@' e.data h]
  rfl

/-- C4: `autoClassify` returns `"unknown"` on the empty email,
`"invalid-email"` when the email does not contain exactly one `'@'`,
`"community"` when the lower-cased domain is one of the fixed
personal-webmail domains, and `"@" ++` the lower-cased domain
otherwise. -/
theorem autoClassify_cases (e : String) :
    (e = "" → autoClassifyByDomain e = "unknown") ∧
    (e ≠ "" → e.data.count '@' ≠ 1 → autoClassifyByDomain e = "invalid-email") ∧
    (e.data.count '@' = 1 →
      (strToLower (domainAfterAt e) ∈ personalDomains →
          autoClassifyByDomain e = "community") ∧
      (strToLower (domainAfterAt e) ∉ personalDomains →
          autoClassifyByDomain e = "@" ++ strToLower (domainAfterAt e))) := by
  refine ⟨fun h => by simp [autoClassifyByDomain, h], ?_, ?_⟩
  · intro hne hcnt
    have hlen : ((splitChars '@' e.data).map String.mk).length ≠ 2 := by
      rw [List.length_map, splitChars_length]
      omega
    unfold autoClassifyByDomain splitOnChar
    rw [if_neg hne]
    rcases hsp : (splitChars '@' e.data).map String.mk with _ | ⟨a, _ | ⟨d, _ | _⟩⟩
    · rfl
    · rfl
    · rw [hsp] at hlen
      simp at hlen
    · rfl
  · intro hcnt
    have hne : e ≠ "" := by
      intro h
      rw [h] at hcnt
      exact absurd hcnt (by decide)
    have hsp := splitOnChar_of_count_one e hcnt
    refine ⟨fun hmem => ?_, fun hmem => ?_⟩
    · unfold autoClassifyByDomain
      rw [if_neg hne, hsp]
      simp [hmem]
    · unfold autoClassifyByDomain
      rw [if_neg hne, hsp]
      simp [hmem]

/-- Witness for C4 at the concrete email `"dev@confluent.io"`. -/
theorem autoClassify_cases_witness :
    autoClassifyByDomain "dev@confluent.io" =
      "@" ++ strToLower (domainAfterAt "dev@confluent.io") :=
  ((autoClassify_cases "dev@confluent.io").2.2 (by decide)).2 (by decide)

/-! ## Worker-pool lemmas (C1) -/

theorem fillSlots_length {β : Type} (ord : List (Nat × Option β)) :
    ∀ slots : List (Option β), (fillSlots slots ord).length = slots.length := by
  induction ord with
  | nil => intro slots; rfl
  | cons p t ih =>
    intro slots
    cases hp : p.2 with
    | none => simpa [fillSlots, hp] using ih slots
    | some d =>
      have : fillSlots slots (p :: t) = fillSlots (slots.set p.1 (some d)) t := by
        simp [fillSlots, hp]
      rw [this, ih, List.length_set]

theorem fillSlots_getElem_of_not_mem {β : Type} (ord : List (Nat × Option β)) :
    ∀ (slots : List (Option β)) (j : Nat), j ∉ ord.map Prod.fst →
      (fillSlots slots ord)[j]? = slots[j]? := by
  induction ord with
  | nil => intro slots j _; rfl
  | cons p t ih =>
    intro slots j hj
    have hji : j ≠ p.1 := by
      intro h
      exact hj (by simp [h])
    have hjt : j ∉ t.map Prod.fst := fun h => hj (by simp [h])
    cases hp : p.2 with
    | none =>
      have : fillSlots slots (p :: t) = fillSlots slots t := by simp [fillSlots, hp]
      rw [this, ih slots j hjt]
    | some d =>
      have : fillSlots slots (p :: t) = fillSlots (slots.set p.1 (some d)) t := by
        simp [fillSlots, hp]
      rw [this, ih _ j hjt, List.getElem?_set_ne (Ne.symm hji)]

theorem fillSlots_getElem_of_mem {β : Type} (ord : List (Nat × Option β)) :
    ∀ (slots : List (Option β)) (j : Nat) (v : Option β),
      (ord.map Prod.fst).Nodup → (j, v) ∈ ord → slots[j]? = some none →
      (fillSlots slots ord)[j]? = some v := by
  induction ord with
  | nil => intro slots j v _ hmem _; simp at hmem
  | cons p t ih =>
    intro slots j v hnd hmem hslot
    have hnd1 : p.1 ∉ t.map Prod.fst := by
      simp only [List.map_cons, List.nodup_cons] at hnd
      exact hnd.1
    have hnd2 : (t.map Prod.fst).Nodup := by
      simp only [List.map_cons, List.nodup_cons] at hnd
      exact hnd.2
    have hjlt : j < slots.length := by
      by_contra hge
      rw [List.getElem?_eq_none (by omega)] at hslot
      exact Option.noConfusion hslot
    rcases List.mem_cons.mp hmem with heq | hmemt
    · have hj : j = p.1 := by rw [← heq]
      have hv : v = p.2 := by rw [← heq]
      have hjt : j ∉ t.map Prod.fst := by
        rw [hj]; exact hnd1
      cases hp : p.2 with
      | none =>
        have hstep : fillSlots slots (p :: t) = fillSlots slots t := by
          simp [fillSlots, hp]
        rw [hstep, fillSlots_getElem_of_not_mem t slots j hjt, hslot, hv, hp]
      | some d =>
        have hstep : fillSlots slots (p :: t) = fillSlots (slots.set p.1 (some d)) t := by
          simp [fillSlots, hp]
        rw [hstep, fillSlots_getElem_of_not_mem t _ j hjt, hj,
          List.getElem?_set_self]
        · rw [hv, hp]
        · rw [← hj]; exact hjlt
    · have hij : p.1 ≠ j := by
        intro h
        exact hnd1 (h ▸ (List.mem_map.mpr ⟨(j, v), hmemt, rfl⟩))
      cases hp : p.2 with
      | none =>
        have hstep : fillSlots slots (p :: t) = fillSlots slots t := by
          simp [fillSlots, hp]
        rw [hstep]
        exact ih slots j v hnd2 hmemt hslot
      | some d =>
        have hstep : fillSlots slots (p :: t) = fillSlots (slots.set p.1 (some d)) t := by
          simp [fillSlots, hp]
        rw [hstep]
        refine ih _ j v hnd2 hmemt ?_
        rw [List.getElem?_set_ne hij]
        exact hslot

theorem taggedResults_map_fst {α β : Type} (extract : α → Option β) (records : List α) :
    (taggedResults extract records).map Prod.fst = List.range records.length := by
  unfold taggedResults
  rw [List.map_map]
  have : (Prod.fst ∘ fun p : Nat × α => (p.1, extract p.2)) = Prod.fst := rfl
  rw [this, List.enum_map_fst]

theorem taggedResults_mem {α β : Type} (extract : α → Option β) (records : List α)
    (j : Nat) (hj : j < records.length) :
    (j, extract records[j]) ∈ taggedResults extract records := by
  unfold taggedResults
  refine List.mem_map.mpr ⟨(j, records[j]), ?_, rfl⟩
  exact List.mem_enum_iff_getElem?.mpr (List.getElem?_eq_getElem hj)

/-- C1: for every record sequence, every worker count ≥ 1 and every
completion order of the workers (any permutation of the tagged
extraction results), the pool returns — with no error — exactly the
successfully extracted records, in the relative order of their inputs. -/
theorem workerPool_ordered {α β : Type} (records : List α)
    (extract : α → Option β) (workers : Nat) (hw : 1 ≤ workers)
    (ord : List (Nat × Option β))
    (hperm : ord.Perm (taggedResults extract records)) :
    processCommitsConcurrent records workers ord =
      Except.ok (records.filterMap extract) := by
  unfold processCommitsConcurrent
  congr 1
  have hnd : (ord.map Prod.fst).Nodup := by
    have h1 : (ord.map Prod.fst).Perm ((taggedResults extract records).map Prod.fst) :=
      hperm.map Prod.fst
    rw [taggedResults_map_fst] at h1
    exact h1.nodup_iff.mpr (List.nodup_range _)
  have hfill : fillSlots (List.replicate records.length none) ord =
      records.map extract := by
    apply List.ext_getElem?
    intro j
    by_cases hj : j < records.length
    · have hslot : (List.replicate records.length (none : Option β))[j]? = some none := by
        simp [List.getElem?_replicate, hj]
      have hmem : (j, extract records[j]) ∈ ord :=
        hperm.mem_iff.mpr (taggedResults_mem extract records j hj)
      rw [fillSlots_getElem_of_mem ord _ j (extract records[j]) hnd hmem hslot,
        List.getElem?_map, List.getElem?_eq_getElem hj]
      rfl
    · rw [List.getElem?_eq_none, List.getElem?_eq_none]
      · rw [List.length_map]; omega
      · rw [fillSlots_length, List.length_replicate]; omega
  rw [hfill, List.filterMap_map]
  rfl

/-- Witness for C1: three records, the middle extraction failing, two
workers, results collected in a completion order different from the
input order. -/
theorem workerPool_ordered_witness :
    processCommitsConcurrent [10, 11, 12] 2
      [(2, some 24), (0, some 20), (1, (none : Option Nat))] =
      Except.ok ([10, 11, 12].filterMap fun n =>
        if n = 11 then none else some (2 * n)) :=
  workerPool_ordered [10, 11, 12]
    (fun n => if n = 11 then none else some (2 * n)) 2 (by decide)
    [(2, some 24), (0, some 20), (1, none)] (by decide)

/-! ## Aggregation-fold commutativity (C6) -/

theorem bumpMetrics_comm (vm : VendorMetrics) (c1 c2 : CommitData) :
    bumpMetrics (bumpMetrics vm c1) c2 = bumpMetrics (bumpMetrics vm c2) c1 := by
  obtain ⟨n, tc, ta, td, uc, cm, am, dm⟩ := vm
  simp only [bumpMetrics]
  congr 1 <;> first
    | omega
    | (split_ifs <;> first
        | rfl
        | exact Finset.Insert.comm _ _ uc)
    | (funext k
       split_ifs <;> omega)

theorem analyzeStep_comm (cfg : Config) (m : String → VendorMetrics)
    (c1 c2 : CommitData) :
    analyzeStep cfg (analyzeStep cfg m c1) c2 =
      analyzeStep cfg (analyzeStep cfg m c2) c1 := by
  funext cat
  simp only [analyzeStep]
  split_ifs <;> first
    | rfl
    | exact bumpMetrics_comm (m cat) c1 c2

theorem analyzeVendorMetrics_perm (cfg : Config) {l l' : List CommitData}
    (h : l.Perm l') :
    analyzeVendorMetrics cfg l = analyzeVendorMetrics cfg l' := by
  unfold analyzeVendorMetrics
  exact h.foldl_eq' (fun x _ y _ z => analyzeStep_comm cfg z x y) _

/-- C6: aggregating any permutation of the commit list yields, for every
category, the same total commits, additions, deletions and
unique-contributor count, and the same by-month buckets. -/
theorem analyze_perm_invariant (cfg : Config) (l l' : List CommitData)
    (h : l.Perm l') (cat : String) :
    (analyzeVendorMetrics cfg l cat).totalCommits =
        (analyzeVendorMetrics cfg l' cat).totalCommits ∧
    (analyzeVendorMetrics cfg l cat).totalAdditions =
        (analyzeVendorMetrics cfg l' cat).totalAdditions ∧
    (analyzeVendorMetrics cfg l cat).totalDeletions =
        (analyzeVendorMetrics cfg l' cat).totalDeletions ∧
    (analyzeVendorMetrics cfg l cat).contributorCount =
        (analyzeVendorMetrics cfg l' cat).contributorCount ∧
    (analyzeVendorMetrics cfg l cat).commitsByMonth =
        (analyzeVendorMetrics cfg l' cat).commitsByMonth ∧
    (analyzeVendorMetrics cfg l cat).additionsByMonth =
        (analyzeVendorMetrics cfg l' cat).additionsByMonth ∧
    (analyzeVendorMetrics cfg l cat).deletionsByMonth =
        (analyzeVendorMetrics cfg l' cat).deletionsByMonth := by
  rw [analyzeVendorMetrics_perm cfg h]
  exact ⟨rfl, rfl, rfl, rfl, rfl, rfl, rfl⟩

/-- Sample commits used by concrete witnesses. -/
def sampleCommitA : CommitData :=
  { sha := "a1", authorName := "Alice", authorEmail := "alice@gmail.com"
    date := { year := 2024, month := 1, day := 15, isoYear := 2024, isoWeek := 3 }
    additions := 5, deletions := 2 }

def sampleCommitB : CommitData :=
  { sha := "b1", authorName := "Bob", authorEmail := "bob@acme.io"
    date := { year := 2024, month := 4, day := 20, isoYear := 2024, isoWeek := 16 }
    additions := 7, deletions := 1 }

def sampleCommitC : CommitData :=
  { sha := "c1", authorName := "Snow", authorEmail := "snow@acme.io"
    date := { year := 2024, month := 7, day := 1, isoYear := 2024, isoWeek := 27 }
    additions := 3, deletions := 3 }

/-- A sample one-vendor configuration: domain `acme.io → "acme"`. -/
def sampleConfig : Config :=
  { vendors := [("acme", { domains := ["acme.io"], githubCompanies := [], usernames := [] })] }

/-- Witness for C6 at a concrete two-commit swap. -/
theorem analyze_perm_invariant_witness :
    (analyzeVendorMetrics sampleConfig [sampleCommitA, sampleCommitB] "acme").totalCommits =
        (analyzeVendorMetrics sampleConfig [sampleCommitB, sampleCommitA] "acme").totalCommits ∧
    (analyzeVendorMetrics sampleConfig [sampleCommitA, sampleCommitB] "acme").totalAdditions =
        (analyzeVendorMetrics sampleConfig [sampleCommitB, sampleCommitA] "acme").totalAdditions ∧
    (analyzeVendorMetrics sampleConfig [sampleCommitA, sampleCommitB] "acme").totalDeletions =
        (analyzeVendorMetrics sampleConfig [sampleCommitB, sampleCommitA] "acme").totalDeletions ∧
    (analyzeVendorMetrics sampleConfig [sampleCommitA, sampleCommitB] "acme").contributorCount =
        (analyzeVendorMetrics sampleConfig [sampleCommitB, sampleCommitA] "acme").contributorCount ∧
    (analyzeVendorMetrics sampleConfig [sampleCommitA, sampleCommitB] "acme").commitsByMonth =
        (analyzeVendorMetrics sampleConfig [sampleCommitB, sampleCommitA] "acme").commitsByMonth ∧
    (analyzeVendorMetrics sampleConfig [sampleCommitA, sampleCommitB] "acme").additionsByMonth =
        (analyzeVendorMetrics sampleConfig [sampleCommitB, sampleCommitA] "acme").additionsByMonth ∧
    (analyzeVendorMetrics sampleConfig [sampleCommitA, sampleCommitB] "acme").deletionsByMonth =
        (analyzeVendorMetrics sampleConfig [sampleCommitB, sampleCommitA] "acme").deletionsByMonth :=
  analyze_perm_invariant sampleConfig [sampleCommitA, sampleCommitB]
    [sampleCommitB, sampleCommitA] (by decide) "acme"

/-- C2 (bug evidence): in auto-classify mode (zero configured vendors)
the timeline fold initializes only `"community"`, yet classification of
`bob@acme.io` yields the synthetic category `"@acme.io"`; the per-commit
update then reads a missing (nil) `VendorMetrics` entry and the Go code
panics — modelled as `none`.  The sister whole-repo fold
(`Analyzer.Analyze`) discovers the same category lazily and counts the
commit, which shows the timeline fold's missing nil-check is the slip. -/
theorem timeline_missing_entry_bug :
    (analyzeTimeline [sampleCommitB] { vendors := [] } "repo" "year").isNone = true ∧
    (analyzeVendorMetrics { vendors := [] } [sampleCommitB] "@acme.io").totalCommits = 1 := by
  constructor
  · rfl
  · rfl

/-! ## Sorting lemmas -/

theorem insertSorted_perm {α : Type} (le : α → α → Bool) (a : α) :
    ∀ l : List α, (insertSorted le a l).Perm (a :: l) := by
  intro l
  induction l with
  | nil => simp [insertSorted]
  | cons b bs ih =>
    unfold insertSorted
    by_cases h : le a b
    · simp [h]
    · simp only [h, if_false]
      exact (ih.cons b).trans (List.Perm.swap a b bs)

theorem sortBy_perm {α : Type} (le : α → α → Bool) :
    ∀ l : List α, (sortBy le l).Perm l := by
  intro l
  induction l with
  | nil => simp [sortBy]
  | cons a as ih =>
    exact (insertSorted_perm le a (sortBy le as)).trans (ih.cons a)

theorem insertSorted_pairwise {α : Type} (le : α → α → Bool)
    (htot : ∀ a b, le a b = true ∨ le b a = true)
    (htrans : ∀ a b c, le a b = true → le b c = true → le a c = true) (a : α) :
    ∀ l : List α, l.Pairwise (fun x y => le x y = true) →
      (insertSorted le a l).Pairwise (fun x y => le x y = true) := by
  intro l
  induction l with
  | nil =>
    intro _
    simp [insertSorted]
  | cons b bs ih =>
    intro hp
    rcases List.pairwise_cons.mp hp with ⟨hb, hbs⟩
    unfold insertSorted
    by_cases h : le a b
    · rw [if_pos h]
      refine List.pairwise_cons.mpr ⟨?_, hp⟩
      intro x hx
      rcases List.mem_cons.mp hx with rfl | hx
      · exact h
      · exact htrans a b x h (hb x hx)
    · rw [if_neg (by simp [h])]
      refine List.pairwise_cons.mpr ⟨?_, ih hbs⟩
      intro x hx
      have hx2 := (insertSorted_perm le a bs).mem_iff.mp hx
      rcases List.mem_cons.mp hx2 with hxa | hx3
      · rw [hxa]
        rcases htot a b with hle | hle
        · exact absurd hle h
        · exact hle
      · exact hb x hx3

theorem sortBy_pairwise {α : Type} (le : α → α → Bool)
    (htot : ∀ a b, le a b = true ∨ le b a = true)
    (htrans : ∀ a b c, le a b = true → le b c = true → le a c = true) :
    ∀ l : List α, (sortBy le l).Pairwise (fun x y => le x y = true) := by
  intro l
  induction l with
  | nil => simp [sortBy]
  | cons a as ih => exact insertSorted_pairwise le htot htrans a _ ih

/-! ## Timeline bucketing lemmas (C5) -/

theorem timelineStep_snd (cfg : Config) (st : List (String × VendorMetrics) × Nat)
    (c : CommitData) (st' : List (String × VendorMetrics) × Nat)
    (h : timelineStep cfg st c = some st') : st'.2 = st.2 + 1 := by
  simp only [timelineStep] at h
  cases hlk : lookupMetrics st.1 (cfg.classify c.authorEmail "" "") with
  | none => rw [hlk] at h; exact Option.noConfusion h
  | some m =>
    rw [hlk] at h
    simp only [Option.some.injEq] at h
    rw [← h]

theorem foldlM_timelineStep_total (cfg : Config) :
    ∀ (l : List CommitData) (st : List (String × VendorMetrics) × Nat)
      (res : List (String × VendorMetrics) × Nat),
      l.foldlM (timelineStep cfg) st = some res → res.2 = st.2 + l.length := by
  intro l
  induction l with
  | nil =>
    intro st res h
    simp only [List.foldlM_nil, pure, Option.some.injEq] at h
    rw [← h, List.length_nil]
    omega
  | cons c t ih =>
    intro st res h
    rw [List.foldlM_cons] at h
    cases hstep : timelineStep cfg st c with
    | none => rw [hstep] at h; exact Option.noConfusion h
    | some st' =>
      rw [hstep] at h
      rw [Option.bind_eq_bind] at h
      simp only [Option.some_bind] at h
      have h1 := ih st' res h
      have h2 := timelineStep_snd cfg st c st' hstep
      rw [h1, h2, List.length_cons]
      omega

theorem analyzePeriod_spec (cfg : Config) (k : String) (l : List CommitData)
    (tb : TimeBreakdown) (h : analyzePeriod cfg k l = some tb) :
    tb.period = k ∧ tb.totalCommits = l.length := by
  unfold analyzePeriod at h
  cases hf : l.foldlM (timelineStep cfg)
      (cfg.getAllCategories.map fun cat => (cat, newVendorMetrics cat), 0) with
  | none => rw [hf] at h; exact Option.noConfusion h
  | some st =>
    rw [hf] at h
    obtain ⟨vm, total⟩ := st
    simp only [Option.some.injEq] at h
    have htot := foldlM_timelineStep_total cfg l _ _ hf
    rw [← h]
    exact ⟨rfl, by simpa using htot⟩

theorem mapM_analyzePeriod_spec (cfg : Config) (b : String) :
    ∀ (ks : List String) (commits : List CommitData) (ps : List TimeBreakdown),
      (ks.mapM fun k =>
        analyzePeriod cfg k (commits.filter fun c => getPeriodKey c.date b = k)) = some ps →
      ps.map (fun tb => tb.period) = ks ∧
      ∀ tb ∈ ps, tb.totalCommits =
        (commits.filter fun c => getPeriodKey c.date b = tb.period).length := by
  intro ks
  induction ks with
  | nil =>
    intro commits ps h
    simp only [List.mapM_nil, pure, Option.some.injEq] at h
    rw [← h]
    exact ⟨rfl, by intro tb htb; exact absurd htb (List.not_mem_nil tb)⟩
  | cons k t ih =>
    intro commits ps h
    rw [List.mapM_cons] at h
    cases h1 : analyzePeriod cfg k (commits.filter fun c => getPeriodKey c.date b = k) with
    | none => rw [h1] at h; exact Option.noConfusion h
    | some tb =>
      rw [h1] at h
      cases h2 : t.mapM (fun k =>
          analyzePeriod cfg k (commits.filter fun c => getPeriodKey c.date b = k)) with
      | none =>
        rw [h2] at h
        exact Option.noConfusion h
      | some rest =>
        rw [h2] at h
        simp only [Option.bind_eq_bind, Option.some_bind, pure, Option.some.injEq] at h
        obtain ⟨hperiod, htotal⟩ := analyzePeriod_spec cfg k _ tb h1
        obtain ⟨hmap, hall⟩ := ih commits rest h2
        constructor
        · rw [← h, List.map_cons, hmap, hperiod]
        · intro tb' htb'
          rw [← h] at htb'
          rcases List.mem_cons.mp htb' with rfl | hmem
          · rw [hperiod]
            exact htotal
          · exact hall tb' hmem

theorem sum_map_add_nat {α : Type} (f g : α → Nat) :
    ∀ l : List α, (l.map fun x => f x + g x).sum = (l.map f).sum + (l.map g).sum := by
  intro l
  induction l with
  | nil => simp
  | cons a t ih => simp [ih]; omega

theorem sum_indicator_zero {α : Type} [DecidableEq α] (x : α) :
    ∀ ks : List α, x ∉ ks → (ks.map fun k => if x = k then 1 else 0).sum = 0 := by
  intro ks
  induction ks with
  | nil => simp
  | cons k t ih =>
    intro hx
    have hk : ¬(x = k) := fun h => hx (by simp [h])
    have ht : x ∉ t := fun h => hx (by simp [h])
    simp [hk, ih ht]

theorem sum_indicator_one {α : Type} [DecidableEq α] (x : α) :
    ∀ ks : List α, ks.Nodup → x ∈ ks →
      (ks.map fun k => if x = k then 1 else 0).sum = 1 := by
  intro ks
  induction ks with
  | nil => intro _ hx; exact absurd hx (List.not_mem_nil x)
  | cons k t ih =>
    intro hnd hx
    rcases List.nodup_cons.mp hnd with ⟨hk, ht⟩
    by_cases hxk : x = k
    · simp [hxk, sum_indicator_zero k t hk]
    · rcases List.mem_cons.mp hx with h | h
      · exact absurd h hxk
      · simp [hxk, ih ht h]

theorem sum_filter_partition (keyOf : CommitData → String) (ks : List String)
    (hnd : ks.Nodup) :
    ∀ commits : List CommitData, (∀ c ∈ commits, keyOf c ∈ ks) →
      (ks.map fun k => (commits.filter fun c => keyOf c = k).length).sum =
        commits.length := by
  intro commits
  induction commits with
  | nil => intro _; simp
  | cons c cs ih =>
    intro hcov
    have hc : keyOf c ∈ ks := hcov c (List.mem_cons_self c cs)
    have hcs : ∀ x ∈ cs, keyOf x ∈ ks := fun x hx => hcov x (List.mem_cons_of_mem c hx)
    have hsplit : ∀ k : String, ((c :: cs).filter fun x => keyOf x = k).length =
        (if keyOf c = k then 1 else 0) + (cs.filter fun x => keyOf x = k).length := by
      intro k
      by_cases h : keyOf c = k <;> simp [List.filter_cons, h] <;> omega
    have hmapeq : (ks.map fun k => ((c :: cs).filter fun x => keyOf x = k).length) =
        ks.map fun k => (if keyOf c = k then 1 else 0) +
          (cs.filter fun x => keyOf x = k).length :=
      List.map_congr_left fun k _ => hsplit k
    rw [hmapeq, sum_map_add_nat, sum_indicator_one (keyOf c) ks hnd hc, ih hcs,
      List.length_cons]
    omega

theorem length_filter_period (x : String) :
    ∀ ps : List TimeBreakdown,
      (ps.filter fun tb => tb.period = x).length =
        ((ps.map fun tb => tb.period).filter fun k => k = x).length := by
  intro ps
  induction ps with
  | nil => rfl
  | cons tb t ih =>
    by_cases h : tb.period = x <;>
      simp [List.filter_cons, h, ih]

theorem length_filter_eq_one_of_nodup (x : String) :
    ∀ ks : List String, ks.Nodup → x ∈ ks →
      (ks.filter fun k => k = x).length = 1 := by
  intro ks
  induction ks with
  | nil => intro _ hx; exact absurd hx (List.not_mem_nil x)
  | cons k t ih =>
    intro hnd hx
    rcases List.nodup_cons.mp hnd with ⟨hk, ht⟩
    by_cases hkx : k = x
    · have hxt : x ∉ t := hkx ▸ hk
      have hzero : (t.filter fun k => k = x).length = 0 := by
        rw [List.length_eq_zero, List.filter_eq_nil_iff]
        intro a ha
        simp only [decide_eq_true_eq]
        intro hax
        exact hxt (hax ▸ ha)
      simp [List.filter_cons, hkx, hzero]
    · rcases List.mem_cons.mp hx with h | h
      · exact absurd h.symm hkx
      · simp [List.filter_cons, hkx, ih ht h]

theorem periodKeys_nodup (commits : List CommitData) (b : String) :
    (periodKeys commits b).Nodup :=
  (sortBy_perm _ _).nodup_iff.mpr (List.nodup_dedup _)

theorem periodKeys_mem (commits : List CommitData) (b : String) (c : CommitData)
    (hc : c ∈ commits) : getPeriodKey c.date b ∈ periodKeys commits b :=
  (sortBy_perm _ _).mem_iff.mpr (List.mem_dedup.mpr (List.mem_map.mpr ⟨c, hc, rfl⟩))

/-- C5: whenever the timeline analysis completes, it partitions the
records: the emitted periods' `TotalCommits` sum to the number of input
records, each record's own period key matches exactly one emitted
bucket, and each bucket counts exactly the records carrying its key. -/
theorem timeline_partition (commits : List CommitData) (cfg : Config)
    (repoName b : String)
    (h : (analyzeTimeline commits cfg repoName b).isSome = true) :
    ((((analyzeTimeline commits cfg repoName b).get h).periods.map
        fun tb => tb.totalCommits).sum = commits.length) ∧
    (∀ c ∈ commits,
      (((analyzeTimeline commits cfg repoName b).get h).periods.filter
        fun tb => tb.period = getPeriodKey c.date b).length = 1) ∧
    (∀ tb ∈ ((analyzeTimeline commits cfg repoName b).get h).periods,
      tb.totalCommits =
        (commits.filter fun c => getPeriodKey c.date b = tb.period).length) := by
  by_cases hc : commits = []
  · subst hc
    have heq : analyzeTimeline [] cfg repoName b =
        some { repoName := repoName, breakdown := b, periods := [] } := rfl
    refine ⟨?_, ?_, ?_⟩ <;> simp [heq]
  · cases hm : (periodKeys commits b).mapM (fun k =>
        analyzePeriod cfg k (commits.filter fun c => getPeriodKey c.date b = k)) with
    | none =>
      have hnone : analyzeTimeline commits cfg repoName b = none := by
        unfold analyzeTimeline
        rw [if_neg hc, hm]
      rw [hnone] at h
      exact absurd h (by simp)
    | some ps =>
      have heq : analyzeTimeline commits cfg repoName b =
          some { repoName := repoName, breakdown := b, periods := ps } := by
        unfold analyzeTimeline
        rw [if_neg hc, hm]
      obtain ⟨hmap, hall⟩ := mapM_analyzePeriod_spec cfg b (periodKeys commits b) commits ps hm
      refine ⟨?_, ?_, ?_⟩ <;> simp only [heq, Option.get_some]
      · have h1 : ps.map (fun tb => tb.totalCommits) =
            ps.map fun tb =>
              (commits.filter fun c => getPeriodKey c.date b = tb.period).length :=
          List.map_congr_left fun tb htb => hall tb htb
        have h2 : (ps.map fun tb =>
              (commits.filter fun c => getPeriodKey c.date b = tb.period).length) =
            (ps.map fun tb => tb.period).map fun k =>
              (commits.filter fun c => getPeriodKey c.date b = k).length := by
          rw [List.map_map]
          rfl
        rw [h1, h2, hmap]
        exact sum_filter_partition (fun c => getPeriodKey c.date b)
          (periodKeys commits b) (periodKeys_nodup commits b) commits
          (fun c hc2 => periodKeys_mem commits b c hc2)
      · intro c hc2
        rw [length_filter_period, hmap]
        exact length_filter_eq_one_of_nodup (getPeriodKey c.date b)
          (periodKeys commits b) (periodKeys_nodup commits b)
          (periodKeys_mem commits b c hc2)
      · intro tb htb
        exact hall tb htb

/-- Witness for C5: three commits over two quarters under a one-vendor
configuration. -/
theorem timeline_partition_witness :
    ((((analyzeTimeline [sampleCommitA, sampleCommitB, sampleCommitC]
          sampleConfig "r" "quarter").get (by decide)).periods.map
        fun tb => tb.totalCommits).sum =
      ([sampleCommitA, sampleCommitB, sampleCommitC] : List CommitData).length) ∧
    (∀ c ∈ [sampleCommitA, sampleCommitB, sampleCommitC],
      (((analyzeTimeline [sampleCommitA, sampleCommitB, sampleCommitC]
          sampleConfig "r" "quarter").get (by decide)).periods.filter
        fun tb => tb.period = getPeriodKey c.date "quarter").length = 1) ∧
    (∀ tb ∈ ((analyzeTimeline [sampleCommitA, sampleCommitB, sampleCommitC]
          sampleConfig "r" "quarter").get (by decide)).periods,
      tb.totalCommits =
        ([sampleCommitA, sampleCommitB, sampleCommitC].filter
          fun c => getPeriodKey c.date "quarter" = tb.period).length) :=
  timeline_partition [sampleCommitA, sampleCommitB, sampleCommitC]
    sampleConfig "r" "quarter" (by decide)

/-- C9: requesting a granularity outside year/quarter/month/week fails
with a fatal error before `AnalyzeTimeline` (hence before any period key
is derived), and a run that reaches bucketing always carries a valid
granularity — the year-defaulting branch of `getPeriodKey` is never the
silent handler of an unrecognized request. -/
theorem breakdown_validation (b : String) :
    (b ∉ validBreakdowns →
      ∀ (commits : List CommitData) (cfg : Config) (repoName : String),
        runAnalyzeTimeline commits cfg repoName b =
          Except.error ("Invalid breakdown type: " ++ b ++
            " (must be: year, quarter, month, week)")) ∧
    (∀ (commits : List CommitData) (cfg : Config) (repoName : String)
        (res : Option TimelineAnalysis),
      runAnalyzeTimeline commits cfg repoName b = Except.ok res →
      b ∈ validBreakdowns) := by
  constructor
  · intro hb commits cfg repoName
    unfold runAnalyzeTimeline
    rw [if_neg hb]
  · intro commits cfg repoName res h
    by_cases hb : b ∈ validBreakdowns
    · exact hb
    · unfold runAnalyzeTimeline at h
      rw [if_neg hb] at h
      exact Except.noConfusion h

/-- Witness for C9: `"day"` is rejected fatally; `"year"` reaches the
bucketer and is indeed in the valid set. -/
theorem breakdown_validation_witness :
    (runAnalyzeTimeline [] { vendors := [] } "r" "day" =
      Except.error ("Invalid breakdown type: " ++ "day" ++
        " (must be: year, quarter, month, week)")) ∧
    "year" ∈ validBreakdowns :=
  ⟨(breakdown_validation "day").1 (by decide) [] { vendors := [] } "r",
   (breakdown_validation "year").2 [] { vendors := [] } "r"
     (analyzeTimeline [] { vendors := [] } "r" "year") rfl⟩

/-! ## Percentage well-formedness lemmas (C8) -/

theorem lookupMetrics_mem (l : List (String × VendorMetrics)) (k : String)
    (m : VendorMetrics) (h : lookupMetrics l k = some m) :
    ∃ p ∈ l, p.2 = m := by
  unfold lookupMetrics at h
  cases hf : l.find? (fun p => p.1 = k) with
  | none => rw [hf] at h; exact Option.noConfusion h
  | some p =>
    rw [hf] at h
    simp only [Option.map_some', Option.some.injEq] at h
    exact ⟨p, List.mem_of_find?_eq_some hf, h⟩

theorem snd_le_summap (f : VendorMetrics → Nat) (l : List (String × VendorMetrics))
    (p : String × VendorMetrics) (hp : p ∈ l) :
    f p.2 ≤ (l.map fun q => f q.2).sum :=
  List.single_le_sum (fun x _ => Nat.zero_le x) _ (List.mem_map.mpr ⟨p, hp, rfl⟩)

theorem pct_bounds (a b : Nat) (hab : a ≤ b) (hb : b ≠ 0) :
    0 ≤ ((a : ℚ) / (b : ℚ) * 100) ∧ (a : ℚ) / (b : ℚ) * 100 ≤ 100 := by
  have hb0 : (0 : ℚ) < (b : ℚ) := by exact_mod_cast Nat.pos_of_ne_zero hb
  constructor
  · positivity
  · have h1 : (a : ℚ) / (b : ℚ) ≤ 1 := (div_le_one hb0).mpr (by exact_mod_cast hab)
    calc (a : ℚ) / (b : ℚ) * 100 ≤ 1 * 100 := by
          apply mul_le_mul_of_nonneg_right h1
          norm_num
      _ = 100 := by norm_num

theorem getVendorPercentage_eval (tb : TimeBreakdown) (vendor metric : String)
    (m : VendorMetrics) (h0 : ¬tb.totalCommits = 0)
    (hlk : lookupMetrics tb.vendorMetrics vendor = some m) :
    tb.getVendorPercentage vendor metric =
      if metric = "commits" then
        (m.totalCommits : ℚ) / (tb.totalCommits : ℚ) * 100
      else if metric = "additions" then
        (if sumAdditions tb.vendorMetrics = 0 then 0
         else (m.totalAdditions : ℚ) / (sumAdditions tb.vendorMetrics : ℚ) * 100)
      else if metric = "contributors" then
        (if sumContributors tb.vendorMetrics = 0 then 0
         else (m.contributorCount : ℚ) / (sumContributors tb.vendorMetrics : ℚ) * 100)
      else 0 := by
  unfold TimeBreakdown.getVendorPercentage
  rw [if_neg h0, hlk]

theorem pct_zero_total (tb : TimeBreakdown) (vendor metric : String)
    (h : tb.totalCommits = 0) : tb.getVendorPercentage vendor metric = 0 := by
  unfold TimeBreakdown.getVendorPercentage
  rw [if_pos h]

theorem pct_zero_lookup (tb : TimeBreakdown) (vendor metric : String)
    (h : lookupMetrics tb.vendorMetrics vendor = none) :
    tb.getVendorPercentage vendor metric = 0 := by
  unfold TimeBreakdown.getVendorPercentage
  by_cases h0 : tb.totalCommits = 0
  · rw [if_pos h0]
  · rw [if_neg h0, h]

theorem pct_zero_metric (tb : TimeBreakdown) (vendor metric : String)
    (h : metric ∉ ["commits", "additions", "contributors"]) :
    tb.getVendorPercentage vendor metric = 0 := by
  have h1 : ¬metric = "commits" := fun hx => h (by rw [hx]; exact List.mem_cons_self _ _)
  have h2 : ¬metric = "additions" := fun hx => h (by rw [hx]; simp)
  have h3 : ¬metric = "contributors" := fun hx => h (by rw [hx]; simp)
  by_cases h0 : tb.totalCommits = 0
  · exact pct_zero_total tb vendor metric h0
  cases hlk : lookupMetrics tb.vendorMetrics vendor with
  | none => exact pct_zero_lookup tb vendor metric hlk
  | some m =>
    rw [getVendorPercentage_eval tb vendor metric m h0 hlk,
      if_neg h1, if_neg h2, if_neg h3]

theorem pct_zero_additions (tb : TimeBreakdown) (vendor metric : String)
    (hT : sumAdditions tb.vendorMetrics = 0) (hm : metric = "additions") :
    tb.getVendorPercentage vendor metric = 0 := by
  by_cases h0 : tb.totalCommits = 0
  · exact pct_zero_total tb vendor metric h0
  cases hlk : lookupMetrics tb.vendorMetrics vendor with
  | none => exact pct_zero_lookup tb vendor metric hlk
  | some m =>
    rw [getVendorPercentage_eval tb vendor metric m h0 hlk, hm]
    rw [if_neg (by decide : ¬("additions" = "commits")), if_pos rfl, if_pos hT]

theorem pct_zero_contributors (tb : TimeBreakdown) (vendor metric : String)
    (hT : sumContributors tb.vendorMetrics = 0) (hm : metric = "contributors") :
    tb.getVendorPercentage vendor metric = 0 := by
  by_cases h0 : tb.totalCommits = 0
  · exact pct_zero_total tb vendor metric h0
  cases hlk : lookupMetrics tb.vendorMetrics vendor with
  | none => exact pct_zero_lookup tb vendor metric hlk
  | some m =>
    rw [getVendorPercentage_eval tb vendor metric m h0 hlk, hm]
    rw [if_neg (by decide : ¬("contributors" = "commits")),
      if_neg (by decide : ¬("contributors" = "additions")), if_pos rfl, if_pos hT]

theorem pct_in_range (tb : TimeBreakdown)
    (hsum : sumCommits tb.vendorMetrics = tb.totalCommits)
    (vendor metric : String) :
    0 ≤ tb.getVendorPercentage vendor metric ∧
      tb.getVendorPercentage vendor metric ≤ 100 := by
  by_cases h0 : tb.totalCommits = 0
  · rw [pct_zero_total tb vendor metric h0]
    norm_num
  cases hlk : lookupMetrics tb.vendorMetrics vendor with
  | none =>
    rw [pct_zero_lookup tb vendor metric hlk]
    norm_num
  | some m =>
    obtain ⟨p, hp, hpm⟩ := lookupMetrics_mem tb.vendorMetrics vendor m hlk
    rw [getVendorPercentage_eval tb vendor metric m h0 hlk]
    by_cases hm1 : metric = "commits"
    · rw [if_pos hm1]
      exact pct_bounds m.totalCommits tb.totalCommits
        (by rw [← hsum, ← hpm]
            exact snd_le_summap (fun q => q.totalCommits) tb.vendorMetrics p hp) h0
    rw [if_neg hm1]
    by_cases hm2 : metric = "additions"
    · rw [if_pos hm2]
      by_cases hT : sumAdditions tb.vendorMetrics = 0
      · rw [if_pos hT]
        norm_num
      · rw [if_neg hT]
        exact pct_bounds m.totalAdditions (sumAdditions tb.vendorMetrics)
          (by rw [← hpm]
              exact snd_le_summap (fun q => q.totalAdditions) tb.vendorMetrics p hp) hT
    rw [if_neg hm2]
    by_cases hm3 : metric = "contributors"
    · rw [if_pos hm3]
      by_cases hT : sumContributors tb.vendorMetrics = 0
      · rw [if_pos hT]
        norm_num
      · rw [if_neg hT]
        exact pct_bounds m.contributorCount (sumContributors tb.vendorMetrics)
          (by rw [← hpm]
              exact snd_le_summap (fun q => q.contributorCount) tb.vendorMetrics p hp) hT
    rw [if_neg hm3]
    norm_num

/-- C8: under the period-bucket invariant (per-category commit totals
sum to the bucket's `TotalCommits`), `GetVendorPercentage` always lies
in `[0, 100]`, and is exactly 0 whenever the metric's period denominator
is 0 (the period's commit total for `"commits"`, the period's addition
or contributor total for the other two), the category is unknown, or
the metric is unknown. -/
theorem getVendorPercentage_wellformed (tb : TimeBreakdown)
    (hsum : sumCommits tb.vendorMetrics = tb.totalCommits)
    (vendor metric : String) :
    0 ≤ tb.getVendorPercentage vendor metric ∧
    tb.getVendorPercentage vendor metric ≤ 100 ∧
    (tb.totalCommits = 0 → tb.getVendorPercentage vendor metric = 0) ∧
    (sumAdditions tb.vendorMetrics = 0 → metric = "additions" →
      tb.getVendorPercentage vendor metric = 0) ∧
    (sumContributors tb.vendorMetrics = 0 → metric = "contributors" →
      tb.getVendorPercentage vendor metric = 0) ∧
    (lookupMetrics tb.vendorMetrics vendor = none →
      tb.getVendorPercentage vendor metric = 0) ∧
    (metric ∉ ["commits", "additions", "contributors"] →
      tb.getVendorPercentage vendor metric = 0) :=
  ⟨(pct_in_range tb hsum vendor metric).1,
   (pct_in_range tb hsum vendor metric).2,
   pct_zero_total tb vendor metric,
   pct_zero_additions tb vendor metric,
   pct_zero_contributors tb vendor metric,
   pct_zero_lookup tb vendor metric,
   pct_zero_metric tb vendor metric⟩

/-- A concrete period bucket satisfying the bucket invariant. -/
def sampleBucket : TimeBreakdown :=
  { period := "2024"
    vendorMetrics :=
      [("acme",
        { name := "acme", totalCommits := 2, totalAdditions := 12
          totalDeletions := 3
          uniqueContributors := {"bob@acme.io", "snow@acme.io"}
          commitsByMonth := fun _ => 0, additionsByMonth := fun _ => 0
          deletionsByMonth := fun _ => 0 }),
       ("community",
        { name := "community", totalCommits := 1, totalAdditions := 5
          totalDeletions := 2
          uniqueContributors := {"alice@gmail.com"}
          commitsByMonth := fun _ => 0, additionsByMonth := fun _ => 0
          deletionsByMonth := fun _ => 0 })]
    totalCommits := 3 }

/-- Witness for C8 at the concrete bucket, category and metric. -/
theorem getVendorPercentage_wellformed_witness :
    0 ≤ sampleBucket.getVendorPercentage "acme" "commits" ∧
    sampleBucket.getVendorPercentage "acme" "commits" ≤ 100 ∧
    (sampleBucket.totalCommits = 0 →
      sampleBucket.getVendorPercentage "acme" "commits" = 0) ∧
    (sumAdditions sampleBucket.vendorMetrics = 0 → "commits" = "additions" →
      sampleBucket.getVendorPercentage "acme" "commits" = 0) ∧
    (sumContributors sampleBucket.vendorMetrics = 0 → "commits" = "contributors" →
      sampleBucket.getVendorPercentage "acme" "commits" = 0) ∧
    (lookupMetrics sampleBucket.vendorMetrics "acme" = none →
      sampleBucket.getVendorPercentage "acme" "commits" = 0) ∧
    ("commits" ∉ ["commits", "additions", "contributors"] →
      sampleBucket.getVendorPercentage "acme" "commits" = 0) :=
  getVendorPercentage_wellformed sampleBucket rfl "acme" "commits"

/-! ## Grouping lemmas (C7) -/

theorem mem_foldr_union (l : List (String × VendorMetrics)) (x : String) :
    (x ∈ l.foldr (fun p acc => p.2.uniqueContributors ∪ acc) ∅) ↔
      ∃ p ∈ l, x ∈ p.2.uniqueContributors := by
  induction l with
  | nil => simp
  | cons p t ih => simp [Finset.mem_union, ih]

theorem sortedVendors_not_community (m : List (String × VendorMetrics)) :
    ∀ p ∈ sortedVendorsByCommits m, p.1 ≠ "community" := by
  intro p hp
  have hmem : p ∈ m.filter fun q => q.1 ≠ "community" :=
    (sortBy_perm _ _).mem_iff.mp hp
  have := List.of_mem_filter hmem
  simpa using this

theorem groupVendors_cases (m : List (String × VendorMetrics)) (topN : Nat) :
    groupVendors m topN =
      (match lookupMetrics m "community" with
        | some cmm => [toVendorGroup "community" cmm]
        | none => []) ++
      (if (sortedVendorsByCommits m).length ≤ topN then
        (sortedVendorsByCommits m).map fun p => toVendorGroup p.1 p.2
      else
        ((sortedVendorsByCommits m).take (topN - 1)).map
            (fun p => toVendorGroup p.1 p.2) ++
          (if topN - 1 < (sortedVendorsByCommits m).length then
            [othersGroup ((sortedVendorsByCommits m).drop (topN - 1))] else [])) := by
  simp only [groupVendors]
  by_cases hle : (sortedVendorsByCommits m).length ≤ topN
  · rw [if_pos hle, if_pos hle]
  · rw [if_neg hle, if_neg hle, List.append_assoc]

/-- C7: with `topN ≥ 1`, grouping emits at most `topN` groups plus one
for `"community"` when present; community is emitted first, ungrouped,
with its own totals; any grouped entry is the single synthetic
`"others"` group, which exists only when more than `topN` vendors
remain, and whose commits/additions/deletions are the sums — and whose
contributor set is the union — over the collapsed (dropped) categories;
no collapsed category is `"community"`. -/
theorem groupVendors_invariant (m : List (String × VendorMetrics)) (topN : Nat)
    (htop : 1 ≤ topN) :
    ((groupVendors m topN).length ≤
      topN + (match lookupMetrics m "community" with
        | some _ => 1
        | none => 0)) ∧
    (∀ cm, lookupMetrics m "community" = some cm →
      (groupVendors m topN).head? = some (toVendorGroup "community" cm)) ∧
    (∀ g ∈ groupVendors m topN, g.isGrouped = true →
      topN < (sortedVendorsByCommits m).length ∧
      g.name = "others" ∧
      g.totalCommits =
        (((sortedVendorsByCommits m).drop (topN - 1)).map
          fun p => p.2.totalCommits).sum ∧
      g.totalAdditions =
        (((sortedVendorsByCommits m).drop (topN - 1)).map
          fun p => p.2.totalAdditions).sum ∧
      g.totalDeletions =
        (((sortedVendorsByCommits m).drop (topN - 1)).map
          fun p => p.2.totalDeletions).sum ∧
      (∀ x, x ∈ g.uniqueContributors ↔
        ∃ p ∈ (sortedVendorsByCommits m).drop (topN - 1),
          x ∈ p.2.uniqueContributors)) ∧
    (∀ p ∈ (sortedVendorsByCommits m).drop (topN - 1), p.1 ≠ "community") := by
  refine ⟨?_, ?_, ?_, ?_⟩
  · rw [groupVendors_cases, List.length_append]
    by_cases hle : (sortedVendorsByCommits m).length ≤ topN
    · rw [if_pos hle]
      cases hlk : lookupMetrics m "community" <;>
        simp only [List.length_nil, List.length_cons, List.length_map] <;> omega
    · rw [if_neg hle]
      have h1 : topN - 1 < (sortedVendorsByCommits m).length := by omega
      rw [if_pos h1]
      cases hlk : lookupMetrics m "community" <;>
        simp only [List.length_nil, List.length_cons, List.length_append,
          List.length_map, List.length_take] <;> omega
  · intro cm hlk
    rw [groupVendors_cases, hlk]
    rfl
  · intro g hg hgrp
    rw [groupVendors_cases] at hg
    rcases List.mem_append.mp hg with hcp | hrest
    · cases hlk : lookupMetrics m "community" with
      | none =>
        rw [hlk] at hcp
        exact absurd hcp (List.not_mem_nil g)
      | some cmm =>
        rw [hlk] at hcp
        have hge : g = toVendorGroup "community" cmm := by simpa using hcp
        rw [hge] at hgrp
        exact absurd hgrp (by simp [toVendorGroup])
    · by_cases hle : (sortedVendorsByCommits m).length ≤ topN
      · rw [if_pos hle] at hrest
        obtain ⟨p, _, hpe⟩ := List.mem_map.mp hrest
        rw [← hpe] at hgrp
        exact absurd hgrp (by simp [toVendorGroup])
      · rw [if_neg hle] at hrest
        rcases List.mem_append.mp hrest with htake | hoth
        · obtain ⟨p, _, hpe⟩ := List.mem_map.mp htake
          rw [← hpe] at hgrp
          exact absurd hgrp (by simp [toVendorGroup])
        · have h1 : topN - 1 < (sortedVendorsByCommits m).length := by omega
          rw [if_pos h1] at hoth
          have hge : g = othersGroup ((sortedVendorsByCommits m).drop (topN - 1)) := by
            simpa using hoth
          refine ⟨by omega, ?_, ?_, ?_, ?_, ?_⟩
          · rw [hge]
            rfl
          · rw [hge]
            rfl
          · rw [hge]
            rfl
          · rw [hge]
            rfl
          · intro x
            rw [hge]
            exact mem_foldr_union _ x
  · intro p hp
    exact sortedVendors_not_community m p (List.mem_of_mem_drop hp)

/-- Zeroed-maps metrics with given totals, for concrete examples. -/
def simpleVM (name : String) (commits additions deletions : Nat) : VendorMetrics :=
  { name := name, totalCommits := commits, totalAdditions := additions
    totalDeletions := deletions, uniqueContributors := ∅
    commitsByMonth := fun _ => 0, additionsByMonth := fun _ => 0
    deletionsByMonth := fun _ => 0 }

/-- A concrete category map with community and three vendors. -/
def sampleGroupMap : List (String × VendorMetrics) :=
  [("community", simpleVM "community" 4 1 1),
   ("alpha", simpleVM "alpha" 3 2 1),
   ("beta", simpleVM "beta" 5 1 0),
   ("gamma", simpleVM "gamma" 1 1 1)]

/-- Witness for C7 at the concrete map with `topN = 2` (one vendor is
collapsed into `"others"`). -/
theorem groupVendors_invariant_witness :
    ((groupVendors sampleGroupMap 2).length ≤
      2 + (match lookupMetrics sampleGroupMap "community" with
        | some _ => 1
        | none => 0)) ∧
    (∀ cm, lookupMetrics sampleGroupMap "community" = some cm →
      (groupVendors sampleGroupMap 2).head? = some (toVendorGroup "community" cm)) ∧
    (∀ g ∈ groupVendors sampleGroupMap 2, g.isGrouped = true →
      2 < (sortedVendorsByCommits sampleGroupMap).length ∧
      g.name = "others" ∧
      g.totalCommits =
        (((sortedVendorsByCommits sampleGroupMap).drop (2 - 1)).map
          fun p => p.2.totalCommits).sum ∧
      g.totalAdditions =
        (((sortedVendorsByCommits sampleGroupMap).drop (2 - 1)).map
          fun p => p.2.totalAdditions).sum ∧
      g.totalDeletions =
        (((sortedVendorsByCommits sampleGroupMap).drop (2 - 1)).map
          fun p => p.2.totalDeletions).sum ∧
      (∀ x, x ∈ g.uniqueContributors ↔
        ∃ p ∈ (sortedVendorsByCommits sampleGroupMap).drop (2 - 1),
          x ∈ p.2.uniqueContributors)) ∧
    (∀ p ∈ (sortedVendorsByCommits sampleGroupMap).drop (2 - 1),
      p.1 ≠ "community") :=
  groupVendors_invariant sampleGroupMap 2 (by decide)

/-! ## Classifier-cascade lemmas (C3) -/

/-- Step-1 condition of the cascade as the spec words it: some username
in the vendor's list equals the probed username case-insensitively. -/
def userMatchB (v : VendorConfig) (u : String) : Bool :=
  v.usernames.any fun x => strToLower x = strToLower u

/-- Step-2 condition: the email has exactly one `'@'` and some domain in
the vendor's list equals the email's domain case-insensitively. -/
def emailDomainMatch (v : VendorConfig) (email : String) : Bool :=
  (email.data.count '@' = 1) &&
    (v.domains.any fun x => strToLower x = strToLower (domainAfterAt email))

/-- Step-3 condition: some organization fragment of the vendor occurs
case-insensitively inside the whitespace-trimmed organization string. -/
def companyMatchB (v : VendorConfig) (company : String) : Bool :=
  v.githubCompanies.any fun x =>
    strContains (strToLower (strTrimSpace company)) (strToLower x)

theorem classifyByUsername_cases (c : Config)
    (hnames : ∀ p ∈ c.vendors, p.1 ≠ "") (u : String) :
    (c.classifyByUsername u = "" ↔
      ¬(u ≠ "" ∧ ∃ p ∈ c.vendors, userMatchB p.2 u = true)) ∧
    (c.classifyByUsername u ≠ "" →
      ∃ p ∈ c.vendors, userMatchB p.2 u = true ∧ c.classifyByUsername u = p.1) := by
  by_cases hu : u = ""
  · have hz : c.classifyByUsername u = "" := by
      simp only [Config.classifyByUsername, if_pos hu]
    exact ⟨iff_of_true hz (fun hcon => hcon.1 hu), fun h => absurd hz h⟩
  · have heq : c.classifyByUsername u =
        (match c.vendors.find? (fun p => p.2.usernames.any fun x =>
            strToLower x = strToLower u) with
          | some p => p.1
          | none => "") := by
      simp only [Config.classifyByUsername, if_neg hu]
    rcases hf : c.vendors.find? (fun p => p.2.usernames.any fun x =>
        strToLower x = strToLower u) with _ | p
    · rw [hf] at heq
      have hz : c.classifyByUsername u = "" := heq.trans rfl
      have hno := List.find?_eq_none.mp hf
      refine ⟨iff_of_true hz ?_, fun h => absurd hz h⟩
      intro hcon
      obtain ⟨_, p, hp, hmatch⟩ := hcon
      have hnop : ∀ x ∈ p.2.usernames, ¬strToLower x = strToLower u := by
        simpa using hno p hp
      have hmatch2 : ∃ x ∈ p.2.usernames, strToLower x = strToLower u := by
        simpa [userMatchB] using hmatch
      obtain ⟨x, hx, hxe⟩ := hmatch2
      exact absurd hxe (hnop x hx)
    · rw [hf] at heq
      have hz : c.classifyByUsername u = p.1 := heq.trans rfl
      have hp : p ∈ c.vendors := List.mem_of_find?_eq_some hf
      have hpred0 := List.find?_some hf
      have hpred : userMatchB p.2 u = true := by simpa [userMatchB] using hpred0
      constructor
      · rw [hz]
        constructor
        · intro h
          exact absurd h (hnames p hp)
        · intro hcon
          exact absurd ⟨hu, p, hp, hpred⟩ hcon
      · intro _
        exact ⟨p, hp, hpred, hz⟩

theorem splitOnChar_length (s : String) (c : Char) :
    (splitOnChar s c).length = s.data.count c + 1 := by
  unfold splitOnChar
  rw [List.length_map, splitChars_length]

theorem classifyByEmail_cases (c : Config)
    (hnames : ∀ p ∈ c.vendors, p.1 ≠ "") (email : String) :
    (c.classifyByEmail email = "" ↔
      ¬(∃ p ∈ c.vendors, emailDomainMatch p.2 email = true)) ∧
    (c.classifyByEmail email ≠ "" →
      ∃ p ∈ c.vendors, emailDomainMatch p.2 email = true ∧
        c.classifyByEmail email = p.1) := by
  by_cases hcnt : email.data.count '@' = 1
  · have hne : email ≠ "" := by
      intro h
      rw [h] at hcnt
      exact absurd hcnt (by decide)
    have hsp := splitOnChar_of_count_one email hcnt
    have heq : c.classifyByEmail email =
        (match c.vendors.find? (fun p => p.2.domains.any fun x =>
            strToLower x = strToLower (domainAfterAt email)) with
          | some p => p.1
          | none => "") := by
      simp only [Config.classifyByEmail, if_neg hne]
      rw [hsp]
    rcases hf : c.vendors.find? (fun p => p.2.domains.any fun x =>
        strToLower x = strToLower (domainAfterAt email)) with _ | p
    · rw [hf] at heq
      have hz : c.classifyByEmail email = "" := heq.trans rfl
      have hno := List.find?_eq_none.mp hf
      refine ⟨iff_of_true hz ?_, fun h => absurd hz h⟩
      intro hcon
      obtain ⟨p, hp, hmatch⟩ := hcon
      have hnop : ∀ x ∈ p.2.domains, ¬strToLower x = strToLower (domainAfterAt email) := by
        simpa using hno p hp
      have hmatch2 : ∃ x ∈ p.2.domains, strToLower x = strToLower (domainAfterAt email) := by
        simpa [emailDomainMatch, hcnt] using hmatch
      obtain ⟨x, hx, hxe⟩ := hmatch2
      exact absurd hxe (hnop x hx)
    · rw [hf] at heq
      have hz : c.classifyByEmail email = p.1 := heq.trans rfl
      have hp : p ∈ c.vendors := List.mem_of_find?_eq_some hf
      have hpred0 := List.find?_some hf
      have hpred : emailDomainMatch p.2 email = true := by
        simpa [emailDomainMatch, hcnt] using hpred0
      constructor
      · rw [hz]
        exact iff_of_false (hnames p hp) (fun hcon => hcon ⟨p, hp, hpred⟩)
      · intro _
        exact ⟨p, hp, hpred, hz⟩
  · have hz : c.classifyByEmail email = "" := by
      by_cases hne : email = ""
      · simp only [Config.classifyByEmail, if_pos hne]
      · simp only [Config.classifyByEmail, if_neg hne]
        rcases hsp2 : splitOnChar email '@' with _ | ⟨a, _ | ⟨d, _ | _⟩⟩
        · rfl
        · rfl
        · exfalso
          have hlen : (splitOnChar email '@').length = 2 := by rw [hsp2]; rfl
          rw [splitOnChar_length] at hlen
          omega
        · rfl
    refine ⟨iff_of_true hz ?_, fun h => absurd hz h⟩
    intro hcon
    obtain ⟨p, _, hmatch⟩ := hcon
    simp [emailDomainMatch, hcnt] at hmatch

theorem classifyByCompany_cases (c : Config)
    (hnames : ∀ p ∈ c.vendors, p.1 ≠ "") (company : String) :
    (c.classifyByCompany company = "" ↔
      ¬(company ≠ "" ∧ ∃ p ∈ c.vendors, companyMatchB p.2 company = true)) ∧
    (c.classifyByCompany company ≠ "" →
      ∃ p ∈ c.vendors, companyMatchB p.2 company = true ∧
        c.classifyByCompany company = p.1) := by
  by_cases hco : company = ""
  · have hz : c.classifyByCompany company = "" := by
      simp only [Config.classifyByCompany, if_pos hco]
    exact ⟨iff_of_true hz (fun hcon => hcon.1 hco), fun h => absurd hz h⟩
  · have heq : c.classifyByCompany company =
        (match c.vendors.find? (fun p => p.2.githubCompanies.any fun x =>
            strContains (strToLower (strTrimSpace company)) (strToLower x)) with
          | some p => p.1
          | none => "") := by
      simp only [Config.classifyByCompany, if_neg hco]
    rcases hf : c.vendors.find? (fun p => p.2.githubCompanies.any fun x =>
        strContains (strToLower (strTrimSpace company)) (strToLower x)) with _ | p
    · rw [hf] at heq
      have hz : c.classifyByCompany company = "" := heq.trans rfl
      have hno := List.find?_eq_none.mp hf
      refine ⟨iff_of_true hz ?_, fun h => absurd hz h⟩
      intro hcon
      obtain ⟨_, p, hp, hmatch⟩ := hcon
      have hnop : ∀ x ∈ p.2.githubCompanies,
          ¬strContains (strToLower (strTrimSpace company)) (strToLower x) = true := by
        simpa using hno p hp
      have hmatch2 : ∃ x ∈ p.2.githubCompanies,
          strContains (strToLower (strTrimSpace company)) (strToLower x) = true := by
        simpa [companyMatchB] using hmatch
      obtain ⟨x, hx, hxe⟩ := hmatch2
      exact absurd hxe (hnop x hx)
    · rw [hf] at heq
      have hz : c.classifyByCompany company = p.1 := heq.trans rfl
      have hp : p ∈ c.vendors := List.mem_of_find?_eq_some hf
      have hpred0 := List.find?_some hf
      have hpred : companyMatchB p.2 company = true := by
        simpa [companyMatchB] using hpred0
      constructor
      · rw [hz]
        exact iff_of_false (hnames p hp) (fun hcon => hcon ⟨hco, p, hp, hpred⟩)
      · intro _
        exact ⟨p, hp, hpred, hz⟩

/-- C3 (amended: step 3 matches against the *whitespace-trimmed*
organization string, as the code trims with `strings.TrimSpace`): with at
least one configured vendor whose names are nonempty, `Classify` returns
the first hit of the cascade — (1) case-insensitive exact username
match, (2) case-insensitive exact match of the email's domain, requiring
exactly one `'@'`, (3) case-insensitive substring match of a vendor
fragment inside the trimmed organization, (4) the default
`"community"`; an empty username or organization never matches its
step. -/
theorem classify_cascade (c : Config) (hc : c.vendors ≠ [])
    (hnames : ∀ p ∈ c.vendors, p.1 ≠ "") (email company username : String) :
    ((username ≠ "" ∧ ∃ p ∈ c.vendors, userMatchB p.2 username = true) →
      ∃ p ∈ c.vendors, userMatchB p.2 username = true ∧
        c.classify email company username = p.1) ∧
    (¬(username ≠ "" ∧ ∃ p ∈ c.vendors, userMatchB p.2 username = true) →
      (∃ p ∈ c.vendors, emailDomainMatch p.2 email = true) →
      ∃ p ∈ c.vendors, emailDomainMatch p.2 email = true ∧
        c.classify email company username = p.1) ∧
    (¬(username ≠ "" ∧ ∃ p ∈ c.vendors, userMatchB p.2 username = true) →
      ¬(∃ p ∈ c.vendors, emailDomainMatch p.2 email = true) →
      (company ≠ "" ∧ ∃ p ∈ c.vendors, companyMatchB p.2 company = true) →
      ∃ p ∈ c.vendors, companyMatchB p.2 company = true ∧
        c.classify email company username = p.1) ∧
    (¬(username ≠ "" ∧ ∃ p ∈ c.vendors, userMatchB p.2 username = true) →
      ¬(∃ p ∈ c.vendors, emailDomainMatch p.2 email = true) →
      ¬(company ≠ "" ∧ ∃ p ∈ c.vendors, companyMatchB p.2 company = true) →
      c.classify email company username = "community") := by
  obtain ⟨hu1, hu2⟩ := classifyByUsername_cases c hnames username
  obtain ⟨he1, he2⟩ := classifyByEmail_cases c hnames email
  obtain ⟨hco1, hco2⟩ := classifyByCompany_cases c hnames company
  refine ⟨?_, ?_, ?_, ?_⟩
  · intro hcond
    have hne : c.classifyByUsername username ≠ "" := fun h0 => (hu1.mp h0) hcond
    have hcls : c.classify email company username = c.classifyByUsername username := by
      simp only [Config.classify, if_neg hc]
      rw [if_pos hne]
    obtain ⟨p, hp, hm, hzz⟩ := hu2 hne
    exact ⟨p, hp, hm, hcls.trans hzz⟩
  · intro hnot hcond
    have hz1 : c.classifyByUsername username = "" := hu1.mpr hnot
    have h1 : ¬(c.classifyByUsername username ≠ "") := fun h => h hz1
    have hne : c.classifyByEmail email ≠ "" := fun h0 => (he1.mp h0) hcond
    have hcls : c.classify email company username = c.classifyByEmail email := by
      simp only [Config.classify, if_neg hc]
      rw [if_neg h1, if_pos hne]
    obtain ⟨p, hp, hm, hzz⟩ := he2 hne
    exact ⟨p, hp, hm, hcls.trans hzz⟩
  · intro hnot1 hnot2 hcond
    have hz1 : c.classifyByUsername username = "" := hu1.mpr hnot1
    have h1 : ¬(c.classifyByUsername username ≠ "") := fun h => h hz1
    have hz2 : c.classifyByEmail email = "" := he1.mpr hnot2
    have h2 : ¬(c.classifyByEmail email ≠ "") := fun h => h hz2
    have hne : c.classifyByCompany company ≠ "" := fun h0 => (hco1.mp h0) hcond
    have hcls : c.classify email company username = c.classifyByCompany company := by
      simp only [Config.classify, if_neg hc]
      rw [if_neg h1, if_neg h2, if_pos hne]
    obtain ⟨p, hp, hm, hzz⟩ := hco2 hne
    exact ⟨p, hp, hm, hcls.trans hzz⟩
  · intro hnot1 hnot2 hnot3
    have hz1 : c.classifyByUsername username = "" := hu1.mpr hnot1
    have h1 : ¬(c.classifyByUsername username ≠ "") := fun h => h hz1
    have hz2 : c.classifyByEmail email = "" := he1.mpr hnot2
    have h2 : ¬(c.classifyByEmail email ≠ "") := fun h => h hz2
    have hz3 : c.classifyByCompany company = "" := hco1.mpr hnot3
    have h3 : ¬(c.classifyByCompany company ≠ "") := fun h => h hz3
    simp only [Config.classify, if_neg hc]
    rw [if_neg h1, if_neg h2, if_neg h3]

/-- A one-vendor configuration with a leading-space organization
fragment. -/
def trimCfg : Config :=
  { vendors := [("vend", { domains := [], githubCompanies := [" x"], usernames := [] })] }

/-- C3 counterexample to the claim as stated: the lower-cased fragment
`" x"` *is* a substring of the lower-cased organization string `" x"`
(so per the claim step (3) matches and the result should be `"vend"`),
yet `Classify` trims the organization to `"x"` first, finds no match,
and returns the default `"community"`. -/
theorem classify_cascade_counterexample :
    strContains (strToLower " x") (strToLower " x") = true ∧
    trimCfg.classifyByUsername "" = "" ∧
    trimCfg.classifyByEmail "" = "" ∧
    trimCfg.classify "" " x" "" = "community" :=
  ⟨by decide, rfl, rfl, by decide⟩

/-- Witness for C3 at a concrete cascade: a domain hit on
`bob@acme.io` with no username hit. -/
theorem classify_cascade_witness :
    ∃ p ∈ sampleConfig.vendors, emailDomainMatch p.2 "bob@acme.io" = true ∧
      sampleConfig.classify "bob@acme.io" "" "" = p.1 :=
  (classify_cascade sampleConfig (by decide) (by decide) "bob@acme.io" "" "").2.1
    (by decide) (by decide)

/-! ## Ranking order lemmas (C10) -/

theorem sortedVendorsByCommits_pairwise (m : List (String × VendorMetrics)) :
    (sortedVendorsByCommits m).Pairwise
      (fun a b => b.2.totalCommits ≤ a.2.totalCommits) := by
  have h := sortBy_pairwise
    (fun (a b : String × VendorMetrics) => b.2.totalCommits ≤ a.2.totalCommits)
    (fun a b => by
      by_cases hab : b.2.totalCommits ≤ a.2.totalCommits
      · exact Or.inl (by simpa using hab)
      · exact Or.inr (by simp; omega))
    (fun a b c h1 h2 => by
      simp only [decide_eq_true_eq] at h1 h2 ⊢
      omega)
    (m.filter fun p => p.1 ≠ "community")
  refine List.Pairwise.imp ?_ h
  intro a b hab
  simpa using hab

/-- C10 counterexample to the claim as stated: `GroupVendors` takes no
ranking metric and always sorts by commit count.  On a two-vendor map
with `topN = 2` and chosen metric `"additions"`, the individually
emitted categories are `alpha` (2 commits, 1 addition) then `beta`
(1 commit, 5 additions): their additions run 1 then 5, not
descending. -/
theorem ranking_descending_counterexample :
    ((groupVendors
        [("alpha", simpleVM "alpha" 2 1 0), ("beta", simpleVM "beta" 1 5 0)]
        2).map fun g => g.name) = ["alpha", "beta"] ∧
    ((groupVendors
        [("alpha", simpleVM "alpha" 2 1 0), ("beta", simpleVM "beta" 1 5 0)]
        2).map fun g => g.totalAdditions) = [1, 5] ∧
    (1 : Nat) < 5 := by
  refine ⟨by decide, by decide, by decide⟩

theorem getSortedVendors_desc (analysis : RepositoryAnalysis) (by' : String) :
    (getSortedVendors analysis by' true).Pairwise
      (fun a b => rankValue analysis by' b ≤ rankValue analysis by' a) := by
  unfold getSortedVendors
  refine List.Pairwise.imp ?_ (sortBy_pairwise _ ?_ ?_ _)
  · intro a b hab
    simpa using hab
  · intro a b
    rcases Nat.le_total (rankValue analysis by' b) (rankValue analysis by' a) with hab | hab
    · exact Or.inl (by simpa using hab)
    · exact Or.inr (by simpa using hab)
  · intro a b c h1 h2
    simp only [if_true, decide_eq_true_eq] at h1 h2 ⊢
    omega

theorem groupVendors_individual_desc (m : List (String × VendorMetrics)) (topN : Nat) :
    ((groupVendors m topN).filter
        fun (g : VendorGroup) => !g.isGrouped && g.name != "community").Pairwise
      (fun g h => h.totalCommits ≤ g.totalCommits) := by
  rw [groupVendors_cases, List.filter_append]
  have hcp : ((match lookupMetrics m "community" with
      | some cmm => [toVendorGroup "community" cmm]
      | none => ([] : List VendorGroup)).filter
        fun (g : VendorGroup) => !g.isGrouped && g.name != "community") = [] := by
    cases lookupMetrics m "community" with
    | none => rfl
    | some cmm => simp [toVendorGroup]
  rw [hcp, List.nil_append]
  by_cases hle : (sortedVendorsByCommits m).length ≤ topN
  · rw [if_pos hle]
    have hkeep : (((sortedVendorsByCommits m).map fun p => toVendorGroup p.1 p.2).filter
        fun (g : VendorGroup) => !g.isGrouped && g.name != "community") =
        (sortedVendorsByCommits m).map fun p => toVendorGroup p.1 p.2 := by
      apply List.filter_eq_self.mpr
      intro g hg
      obtain ⟨p, hp, hpe⟩ := List.mem_map.mp hg
      rw [← hpe]
      simp [toVendorGroup, sortedVendors_not_community m p hp]
    rw [hkeep, List.pairwise_map]
    exact (sortedVendorsByCommits_pairwise m).imp fun hab => hab
  · rw [if_neg hle, List.filter_append]
    have hoth : ((if topN - 1 < (sortedVendorsByCommits m).length then
        [othersGroup ((sortedVendorsByCommits m).drop (topN - 1))]
        else ([] : List VendorGroup)).filter
          fun (g : VendorGroup) => !g.isGrouped && g.name != "community") = [] := by
      by_cases h1 : topN - 1 < (sortedVendorsByCommits m).length
      · rw [if_pos h1]
        simp [othersGroup]
      · rw [if_neg h1]
        rfl
    have hkeep : ((((sortedVendorsByCommits m).take (topN - 1)).map
        fun p => toVendorGroup p.1 p.2).filter
          fun (g : VendorGroup) => !g.isGrouped && g.name != "community") =
        ((sortedVendorsByCommits m).take (topN - 1)).map
          fun p => toVendorGroup p.1 p.2 := by
      apply List.filter_eq_self.mpr
      intro g hg
      obtain ⟨p, hp, hpe⟩ := List.mem_map.mp hg
      rw [← hpe]
      have hp2 : p ∈ sortedVendorsByCommits m := List.mem_of_mem_take hp
      simp [toVendorGroup, sortedVendors_not_community m p hp2]
    rw [hoth, hkeep, List.append_nil, List.pairwise_map]
    exact ((sortedVendorsByCommits_pairwise m).sublist
      (List.take_sublist _ _)).imp fun hab => hab

/-- C10 (amended): `GroupVendors` has no metric parameter — its
individually emitted non-community categories appear in descending
order of *commit count* whatever metric the display will use — while
`GetSortedVendors` with `reverse = true` emits all categories in
descending order of the chosen ranking metric (commits, additions or
contributors; an unrecognized metric ranks by commits). -/
theorem ranking_descending (m : List (String × VendorMetrics)) (topN : Nat)
    (htop : 1 ≤ topN) (analysis : RepositoryAnalysis) (by' : String) :
    (((groupVendors m topN).filter
        fun (g : VendorGroup) => !g.isGrouped && g.name != "community").Pairwise
      fun g h => h.totalCommits ≤ g.totalCommits) ∧
    ((getSortedVendors analysis by' true).Pairwise
      fun a b => rankValue analysis by' b ≤ rankValue analysis by' a) :=
  ⟨groupVendors_individual_desc m topN, getSortedVendors_desc analysis by'⟩

/-- A concrete whole-repo aggregate for the C10 witness. -/
def sampleAnalysis : RepositoryAnalysis :=
  { repoName := "r", totalCommits := 13, totalContributors := 0
    vendorMetrics := sampleGroupMap }

/-- Witness for C10 at the concrete map, `topN = 2` and metric
`"additions"`. -/
theorem ranking_descending_witness :
    (((groupVendors sampleGroupMap 2).filter
        fun (g : VendorGroup) => !g.isGrouped && g.name != "community").Pairwise
      fun g h => h.totalCommits ≤ g.totalCommits) ∧
    ((getSortedVendors sampleAnalysis "additions" true).Pairwise
      fun a b => rankValue sampleAnalysis "additions" b ≤
        rankValue sampleAnalysis "additions" a) :=
  ranking_descending sampleGroupMap 2 (by decide) sampleAnalysis "additions"
